import Mathlib

/-!
Shallow embedding of the knowledge-persistence core of the `smart-codebase`
plugin (fact store, fact loader, index builder, knowledge linker), translated
from the TypeScript sources:

* `src/storage/knowledge-store.ts` — `appendFact`, `acquireLock`, `releaseLock`
* `src/storage/knowledge-loader.ts` — `loadKnowledge`, `loadRelevantKnowledge`,
  `matchesKeywords`
* `src/storage/index-builder.ts` — `buildSearchIndex`, `buildGraph`,
  `rebuildAllIndexes`
* `src/linking/knowledge-linker.ts` — `linkFact`, `updateRelatedFactsFields`

Filesystem state is made explicit: a fact log is a list of lines, the project
is a list of logs keyed by their relative paths, and the persisted graph and
search index are explicit values threaded through each operation.

The linker and index builder are modelled at two levels.  `ProjectState`
carries the facts each discovered log contains and models the dataflow the
source's own doc comments and examples describe.  The disk-level definitions
(`DiskProject` and below) additionally model the source's per-file path
resolution: every discovered log is loaded as `loadKnowledge(dirname(file))`,
which resolves the doubled path `<module>/.knowledge/.knowledge/facts.jsonl`
and therefore always reads back empty — the divergence the code-bug theorems
at the end of the file evaluate.
-/

namespace SmartCodebase

/-- The `Fact` record from `src/types.ts`.  `related_facts` is an optional
field in TypeScript (`related_facts?: string[]`), modelled as `Option`.
`importance` is one of the strings "high" | "medium" | "low"; nothing in the
core branches on it, so it is kept as a plain string. -/
structure Fact where
  id : String
  timestamp : String
  subject : String
  fact : String
  citations : List String
  importance : String
  learned_from : String
  keywords : List String
  related_facts : Option (List String)
deriving Repr, DecidableEq

/-- `GraphEdge` from `src/types.ts`.  The TypeScript field names `from` and
`to` are keywords in Lean, hence the trailing underscores. -/
structure GraphEdge where
  from_ : String
  to_ : String
  relation : String
deriving Repr, DecidableEq

/-- `KnowledgeGraph` from `src/types.ts`: `{nodes: string[], edges: GraphEdge[]}`. -/
structure KnowledgeGraph where
  nodes : List String
  edges : List GraphEdge
deriving Repr, DecidableEq

/-- The number of related facts a single fact may carry:
`const MAX_RELATED_FACTS = 5` in `knowledge-linker.ts`. -/
def MAX_RELATED_FACTS : Nat := 5

/-- One line of a `facts.jsonl` file, as the reader in
`knowledge-loader.ts` classifies it after `trim`:

* `blank` — an empty (or whitespace-only) line, skipped silently;
* `malformed` — a line on which `JSON.parse` throws, skipped with a warning
  (the raw text is kept only so distinct corrupt lines stay distinct);
* `fact f` — a line holding valid JSON.  `JSON.parse(line) as Fact` performs
  no validation beyond JSON syntax, and `JSON.stringify` of a `Fact` record
  round-trips through `JSON.parse` to an equal record, so a valid line is
  modelled as directly carrying its parsed `Fact`. -/
inductive LogLine where
  | blank : LogLine
  | malformed (raw : String) : LogLine
  | fact (f : Fact) : LogLine
deriving Repr, DecidableEq

/-- The parsed fact of a line, if the line holds one. -/
def LogLine.parsedFact : LogLine → Option Fact
  | .fact f => some f
  | _ => none

/-- A directory's `.knowledge/facts.jsonl` file as the loader can encounter
it: absent on disk, present but unreadable (permissions etc., the
`readTextFile` call throws), or readable with the given lines. -/
inductive FactsFile where
  | absent : FactsFile
  | unreadable : FactsFile
  | content (lines : List LogLine) : FactsFile
deriving Repr, DecidableEq

/-- `loadKnowledge(directory)` from `knowledge-loader.ts`, applied to the
directory's facts file.  An absent file returns `[]`; a read error is caught
and returns `[]`; otherwise every line is parsed independently, blank lines
and lines on which `JSON.parse` throws are skipped, and the parsed facts are
returned in file order. -/
def loadKnowledge : FactsFile → List Fact
  | .absent => []
  | .unreadable => []
  | .content lines => lines.filterMap LogLine.parsedFact

/-- `appendFact(directory, fact)` from the knowledge-store module, run with
no concurrent writer so the lock is acquired at once: ensure the directory
exists, read the existing content (empty when the file is missing), and write
it back with `JSON.stringify(fact) + '\n'` appended.  A read failure throws
out of `appendFact` (after the lock is released), modelled as `Except.error`. -/
def appendFact (file : FactsFile) (f : Fact) : Except String FactsFile :=
  match file with
  | .unreadable => .error "IOError"
  | .absent => .ok (.content [LogLine.fact f])
  | .content lines => .ok (.content (lines ++ [LogLine.fact f]))

/-- A sequence of `appendFact` calls on the same directory, one after another. -/
def appendAll (file : FactsFile) (facts : List Fact) : Except String FactsFile :=
  match facts with
  | [] => .ok file
  | f :: rest => match appendFact file f with
    | .ok file' => appendAll file' rest
    | .error e => .error e

/-- Occurrence check on character lists, the semantics of JavaScript's
`String.prototype.includes`: `occursIn sub s` is true iff `sub` occurs as a
contiguous block inside `s` (an empty needle always occurs). -/
def occursIn (sub : List Char) : List Char → Bool
  | [] => sub.isEmpty
  | c :: rest => sub.isPrefixOf (c :: rest) || occursIn sub rest

/-- JavaScript `s.includes(sub)` on strings. -/
def strIncludes (s sub : String) : Bool :=
  occursIn sub.toList s.toList

/-- The characters before the last `/` of a path, as a character list. -/
def dirnameChars (cs : List Char) : List Char :=
  ((cs.reverse.dropWhile fun c => c ≠ '/').tail).reverse

/-- Node's `path.dirname`, modelled for the slash-separated paths the plugin
passes it (no trailing separators): the characters before the last `/`,
`"."` when there is no separator, `"/"` when the only separator leads the
path. -/
def dirname (p : String) : String :=
  if '/' ∈ p.toList then
    if (dirnameChars p.toList).isEmpty then "/" else String.mk (dirnameChars p.toList)
  else "."

/-- `matchesKeywords(fact, normalizedKeywords)` from `knowledge-loader.ts`:
lowercase the fact's subject, content and keywords, then return true as soon
as some query keyword is a substring of the subject, of the content, or of
one of the fact's own keywords. -/
def matchesKeywords (f : Fact) (normalizedKeywords : List String) : Bool :=
  let subject := f.subject.toLower
  let content := f.fact.toLower
  let factKeywords := f.keywords.map String.toLower
  normalizedKeywords.any fun keyword =>
    strIncludes subject keyword || strIncludes content keyword ||
      factKeywords.any fun factKeyword => strIncludes factKeyword keyword

/-- `loadRelevantKnowledge(filePath, keywords)` from `knowledge-loader.ts`.
`fs` maps a directory to its facts file.  The owning directory is
`dirname(filePath)`; with no keywords every fact there is returned, otherwise
the facts are filtered through `matchesKeywords` against the lowercased
keywords. -/
def loadRelevantKnowledge (fs : String → FactsFile) (filePath : String)
    (keywords : List String) : List Fact :=
  let directory := dirname filePath
  let allFacts := loadKnowledge (fs directory)
  if keywords.length = 0 then
    allFacts
  else
    let normalizedKeywords := keywords.map String.toLower
    allFacts.filter fun fact => matchesKeywords fact normalizedKeywords

/-- The length of a fact's `related_facts`, reading an absent field as empty:
`(fact.related_facts || []).length` in the linker. -/
def relLen (f : Fact) : Nat :=
  (f.related_facts.getD []).length

/-- The file portion of a citation: `c.split(':')[0]` in the linker, i.e.
every character before the first `':'` (the whole string when there is
none). -/
def citationFile (c : String) : String :=
  String.mk (c.toList.takeWhile fun ch => ch ≠ ':')

/-- The relationship-detection rule of `linkFact` (lines 93-104 of
`knowledge-linker.ts`): keyword overlap of at least two (counted over
`newFact.keywords.filter(k => existingFact.keywords.includes(k))`) or at
least one common citation file. -/
def linkRule (newFact existingFact : Fact) : Bool :=
  let commonKeywords := newFact.keywords.filter fun k => existingFact.keywords.contains k
  let newFiles := newFact.citations.map citationFile
  let existingFiles := existingFact.citations.map citationFile
  let commonFiles := newFiles.filter fun f => existingFiles.contains f
  decide (2 ≤ commonKeywords.length) || decide (0 < commonFiles.length)

/-- The accumulator of the candidate scan in `linkFact`: the
`relatedFactIds` and `newEdges` arrays built up by the loop. -/
structure ScanAcc where
  relatedFactIds : List String
  newEdges : List GraphEdge
deriving Repr, DecidableEq

/-- One iteration body of the `for (const existingFact of allFacts)` loop in
`linkFact`, without the `break`: skip the new fact itself; skip the pair when
either side's current `related_facts` length is already at the cap; otherwise
apply `linkRule` and, on a match, record the candidate's id and stage the two
directed edges. -/
def processCandidate (newFact : Fact) (acc : ScanAcc) (existingFact : Fact) : ScanAcc :=
  if existingFact.id = newFact.id then acc
  else if MAX_RELATED_FACTS ≤ relLen newFact ∨ MAX_RELATED_FACTS ≤ relLen existingFact then acc
  else if linkRule newFact existingFact then
    { relatedFactIds := acc.relatedFactIds ++ [existingFact.id],
      newEdges := acc.newEdges ++
        [⟨newFact.id, existingFact.id, "related"⟩, ⟨existingFact.id, newFact.id, "related"⟩] }
  else acc

/-- The candidate scan of `linkFact` over `allFacts` (lines 79-125): fold
`processCandidate` over the facts in discovery order, breaking out of the
loop as soon as a push brings `relatedFactIds` to `MAX_RELATED_FACTS`. -/
def scanFacts (newFact : Fact) : ScanAcc → List Fact → ScanAcc
  | acc, [] => acc
  | acc, f :: rest =>
    let acc' := processCandidate newFact acc f
    if acc'.relatedFactIds.length ≠ acc.relatedFactIds.length ∧
        MAX_RELATED_FACTS ≤ acc'.relatedFactIds.length then acc'
    else scanFacts newFact acc' rest

/-- Append an edge unless an equal `(from, to, relation)` triple is already
present — the deduplication loop at lines 134-142 of `knowledge-linker.ts`. -/
def addEdgeIfAbsent (edges : List GraphEdge) (e : GraphEdge) : List GraphEdge :=
  if edges.contains e then edges else edges ++ [e]

/-- The per-fact effect of `updateRelatedFactsFields`: a stored fact whose id
was declared related gains `newId` in its `related_facts` (initialised to `[]`
when absent) unless already present, then the list is truncated to the cap;
all other stored facts are untouched.  Files none of whose facts change are
not rewritten, which leaves their contents equal, so mapping this over every
log is the whole write-back. -/
def updateBack (newId : String) (relatedFactIds : List String) (f : Fact) : Fact :=
  if f.id ∈ relatedFactIds then
    let rel := f.related_facts.getD []
    if newId ∈ rel then { f with related_facts := some rel }
    else { f with related_facts := some ((rel ++ [newId]).take MAX_RELATED_FACTS) }
  else f

/-- The project state `linkFact` and the index builder read and write: the
persisted knowledge graph, the persisted search index (keyword → location
list, in JavaScript-object insertion order), and every discovered
`.knowledge/facts.jsonl` log, keyed by its project-relative path and already
decoded by `loadKnowledge`, in discovery order.

This layer carries the facts each discovered log actually contains — the
dataflow the source's own doc comments and examples describe.  The source's
per-file load, `loadKnowledge(dirname(file))`, mis-resolves every discovered
log to `<module>/.knowledge/.knowledge/facts.jsonl` and so returns `[]`;
that path arithmetic is modelled explicitly by the disk-level definitions
(`DiskProject` and below), which the code-bug theorems use. -/
structure ProjectState where
  graph : KnowledgeGraph
  index : List (String × List String)
  logs : List (String × List Fact)
deriving Repr, DecidableEq

/-- All facts of the project in discovery order — the `allFacts` array that
`linkFact` intends to build from every discovered log.  In the source the
per-file load mis-resolves the path (see `discoveredFacts` below), so the
array the program actually builds is always empty. -/
def allFacts (st : ProjectState) : List Fact :=
  (st.logs.map Prod.snd).flatten

/-- `linkFact(newFact, projectRoot)` from `knowledge-linker.ts` as a state
transformer.  Returns the updated project state together with the mutated
`newFact` (the caller's object, whose `related_facts` the function rewrites
in place).  Steps, in source order: add the node if absent, scan all facts
for candidates, set `newFact.related_facts` to the truncated concatenation,
merge the staged edges with deduplication, persist the graph, and run the
bidirectional write-back over the affected logs. -/
def linkFact (newFact : Fact) (st : ProjectState) : ProjectState × Fact :=
  let nodes := if st.graph.nodes.contains newFact.id then st.graph.nodes
    else st.graph.nodes ++ [newFact.id]
  let scan := scanFacts newFact ⟨[], []⟩ (allFacts st)
  let updatedNewFact := { newFact with
    related_facts := some ((newFact.related_facts.getD [] ++ scan.relatedFactIds).take MAX_RELATED_FACTS) }
  let edges := scan.newEdges.foldl addEdgeIfAbsent st.graph.edges
  let logs := st.logs.map fun (path, facts) =>
    (path, facts.map (updateBack newFact.id scan.relatedFactIds))
  ({ st with graph := ⟨nodes, edges⟩, logs := logs }, updatedNewFact)

/-- Insertion-ordered set add, the behaviour of `Set.prototype.add` on a set
materialised back through `Array.from`: append unless present. -/
def setAdd (l : List String) (x : String) : List String :=
  if l.contains x then l else l ++ [x]

/-- `new Set(l)` materialised through `Array.from`: deduplicate keeping the
first occurrence of each element, in order. -/
def setOfList (l : List String) : List String :=
  l.foldl setAdd []

/-- Add one `(keyword, location)` pair to the search index, the body of the
innermost loop of `buildSearchIndex`: create the keyword's entry at the end
of the object when missing, and append the location to the keyword's list
unless already present. -/
def indexAdd (idx : List (String × List String)) (keyword location : String) :
    List (String × List String) :=
  match idx with
  | [] => [(keyword, [location])]
  | (k, locs) :: rest =>
    if k = keyword then
      (k, if locs.contains location then locs else locs ++ [location]) :: rest
    else (k, locs) :: indexAdd rest keyword location

/-- The `(keyword, location)` pairs that the three nested loops of
`buildSearchIndex` visit, in visit order: for each discovered log, for each
fact in it, for each keyword of the fact, the pair
`(keyword, "<relative-path>:<fact-id>")`. -/
def indexPairs (logs : List (String × List Fact)) : List (String × String) :=
  (logs.map fun (path, facts) =>
    (facts.map fun f => f.keywords.map fun kw => (kw, path ++ ":" ++ f.id)).flatten).flatten

/-- `buildSearchIndex(projectRoot)` from `index-builder.ts`: start from a copy
of the persisted index and fold every visited `(keyword, location)` pair into
it with `indexAdd`; logs and graph are untouched. -/
def buildSearchIndex (st : ProjectState) : ProjectState :=
  { st with index := (indexPairs st.logs).foldl (fun i p => indexAdd i p.1 p.2) st.index }

/-- `buildGraph(projectRoot)` from `index-builder.ts`: seed a node set with
the persisted nodes (`new Set(existingGraph.nodes)`), add every discovered
fact id, and keep the persisted edges untouched (`[...existingGraph.edges]`);
the search index and the logs are not modified. -/
def buildGraph (st : ProjectState) : ProjectState :=
  let nodeSet := (allFacts st).foldl (fun s f => setAdd s f.id) (setOfList st.graph.nodes)
  { st with graph := ⟨nodeSet, st.graph.edges⟩ }

/-- `rebuildAllIndexes(projectRoot)`: `buildSearchIndex` then `buildGraph`,
in sequence. -/
def rebuildAllIndexes (st : ProjectState) : ProjectState :=
  buildGraph (buildSearchIndex st)

/-!
Interleaving model of concurrent `appendFact` calls on one directory.  The
store runs under cooperative asynchronous scheduling, so control can switch
between two in-flight `appendFact` calls exactly at the `await` points.  Each
worker is a small program whose atomic steps sit between those points:

* `checkLock` — `await fileExists(lockFile)`; when the lock file exists the
  worker sleeps and retries (it stays at this step), otherwise it proceeds;
* `writeLock` — `await writeTextFile(lockFile, pid)`;
* `readLog` — `await fileExists(factsFile)` / `await readTextFile(factsFile)`,
  saving the current content in the local `existingContent`;
* `writeLog` — `await writeTextFile(factsFile, existingContent + line)`;
* `unlock` — `releaseLock`: remove the lock file.

Collapsing the two awaits of `readLog` into one atomic step only removes
interleavings, so any behaviour exhibited here is a behaviour of the source.
-/

/-- Program counter of one in-flight `appendFact` call. -/
inductive AppendPc where
  | checkLock | writeLock | readLog | writeLog | unlock | done
deriving Repr, DecidableEq

/-- One in-flight `appendFact(directory, fact)` call: its next step, the fact
it is appending, and the content its local `existingContent` holds after
`readLog`. -/
structure Worker where
  pc : AppendPc
  fact : Fact
  saved : List LogLine
deriving Repr, DecidableEq

/-- The shared directory state plus every worker: whether
`.knowledge/.lock` currently exists, the `facts.jsonl` lines (`none` when the
file does not exist yet), and the workers. -/
structure StoreState where
  lockHeld : Bool
  log : Option (List LogLine)
  workers : List Worker
deriving Repr, DecidableEq

/-- Run the next atomic step of one worker against the shared state. -/
def workerStep (s : StoreState) (w : Worker) : StoreState × Worker :=
  match w.pc with
  | .checkLock =>
    if s.lockHeld then (s, w)                    -- lock file exists: sleep, retry
    else (s, { w with pc := .writeLock })        -- observed absent: proceed
  | .writeLock => ({ s with lockHeld := true }, { w with pc := .readLog })
  | .readLog => (s, { w with pc := .writeLog, saved := s.log.getD [] })
  | .writeLog =>
    ({ s with log := some (w.saved ++ [LogLine.fact w.fact]) }, { w with pc := .unlock })
  | .unlock => ({ s with lockHeld := false }, { w with pc := .done })
  | .done => (s, w)

/-- Schedule worker `i` for one atomic step. -/
def schedStep (s : StoreState) (i : Nat) : StoreState :=
  match s.workers.get? i with
  | none => s
  | some w =>
    let (s', w') := workerStep s w
    { s' with workers := s'.workers.set i w' }

/-- Run a whole schedule, one worker index per atomic step. -/
def runSchedule (s : StoreState) (schedule : List Nat) : StoreState :=
  schedule.foldl schedStep s

/-- A fresh directory with two pending `appendFact` calls. -/
def twoWorkers (f1 f2 : Fact) : StoreState :=
  { lockHeld := false
    log := none
    workers := [⟨.checkLock, f1, []⟩, ⟨.checkLock, f2, []⟩] }

/-- The facts a subsequent `loadKnowledge` returns from the shared log. -/
def StoreState.loadedFacts (s : StoreState) : List Fact :=
  loadKnowledge (match s.log with | none => .absent | some lines => .content lines)

/-- A concrete fact with the given id, keywords, citations and related list,
used to instantiate theorems on explicit inputs. -/
def mkFact (id : String) (keywords citations : List String)
    (related : Option (List String)) : Fact :=
  { id := id, timestamp := "2024-01-01T00:00:00Z", subject := "subject " ++ id,
    fact := "content " ++ id, citations := citations, importance := "medium",
    learned_from := "session", keywords := keywords, related_facts := related }

/-! ### Helper lemmas -/

theorem appendAll_content (facts : List Fact) :
    ∀ lines : List LogLine,
      appendAll (.content lines) facts = .ok (.content (lines ++ facts.map LogLine.fact)) := by
  induction facts with
  | nil => intro lines; simp [appendAll]
  | cons f rest ih =>
    intro lines
    simp [appendAll, appendFact, ih (lines ++ [LogLine.fact f])]

theorem loadKnowledge_map_fact (facts : List Fact) :
    loadKnowledge (.content (facts.map LogLine.fact)) = facts := by
  induction facts with
  | nil => rfl
  | cons f rest ih =>
    simpa [loadKnowledge, LogLine.parsedFact] using ih

/-! ### Claim theorems -/

/-- C3: for every sequence of facts appended one after another to the same
directory via `appendFact`, with no other writers, a subsequent
`loadKnowledge` of that directory returns exactly those facts in the exact
order they were appended — starting from a fresh directory exactly the
appended sequence, and starting from existing content that sequence appended
after the facts already present. -/
theorem append_then_loadAll_ordered (facts : List Fact) :
    (∃ file : FactsFile, appendAll FactsFile.absent facts = .ok file ∧
      loadKnowledge file = facts) ∧
    ∀ lines : List LogLine, ∃ file : FactsFile,
      appendAll (.content lines) facts = .ok file ∧
      loadKnowledge file = loadKnowledge (.content lines) ++ facts := by
  constructor
  · cases facts with
    | nil => exact ⟨.absent, rfl, rfl⟩
    | cons f rest =>
      refine ⟨.content ((f :: rest).map LogLine.fact), ?_, loadKnowledge_map_fact _⟩
      simpa [appendAll, appendFact] using appendAll_content rest [LogLine.fact f]
  · intro lines
    refine ⟨.content (lines ++ facts.map LogLine.fact), appendAll_content facts lines, ?_⟩
    show (lines ++ facts.map LogLine.fact).filterMap LogLine.parsedFact = _
    rw [List.filterMap_append]
    exact congrArg _ (loadKnowledge_map_fact facts)

/-- Concrete facts for the loader-tolerance and race instances. -/
def wfA : Fact := mkFact "A" ["order", "status", "update"] [] none

def wfB : Fact := mkFact "B" ["order", "status"] [] none

def wfC : Fact := mkFact "C" [] ["src/x.ts:10-20"] none

/-- C5: `loadKnowledge` returns an empty list, raising no error, when the
fact log is absent, unreadable or empty; on readable content every line is
handled independently — blank and malformed lines are dropped, every valid
line's fact is returned — and in particular a log with one malformed line
among three valid lines yields exactly the three valid facts. -/
theorem loadKnowledge_error_tolerance :
    loadKnowledge .absent = [] ∧
    loadKnowledge .unreadable = [] ∧
    loadKnowledge (.content []) = [] ∧
    (∀ lines : List LogLine,
      loadKnowledge (.content lines) = lines.filterMap LogLine.parsedFact) ∧
    loadKnowledge (.content
        [.fact wfA, .malformed "not json", .fact wfB, .fact wfC]) =
      [wfA, wfB, wfC] := by
  refine ⟨rfl, rfl, rfl, fun lines => rfl, rfl⟩

theorem isPrefixOf_eq_true_iff (l₁ : List Char) :
    ∀ l₂ : List Char, l₁.isPrefixOf l₂ = true ↔ ∃ t, l₂ = l₁ ++ t := by
  induction l₁ with
  | nil => intro l₂; simp [List.isPrefixOf]
  | cons a as ih =>
    intro l₂
    cases l₂ with
    | nil => simp [List.isPrefixOf]
    | cons b bs =>
      simp only [List.isPrefixOf, Bool.and_eq_true, beq_iff_eq, ih bs]
      constructor
      · rintro ⟨rfl, t, rfl⟩; exact ⟨t, rfl⟩
      · rintro ⟨t, ht⟩
        injection ht with h1 h2
        exact ⟨h1.symm, t, h2⟩

theorem occursIn_eq_true_iff (sub : List Char) :
    ∀ s : List Char, occursIn sub s = true ↔ ∃ pre post, s = pre ++ sub ++ post := by
  intro s
  induction s with
  | nil =>
    simp only [occursIn, List.isEmpty_iff]
    constructor
    · rintro rfl; exact ⟨[], [], rfl⟩
    · rintro ⟨pre, post, h⟩
      rcases List.append_eq_nil.mp h.symm with ⟨h1, h2⟩
      exact (List.append_eq_nil.mp h1).2
  | cons c rest ih =>
    simp only [occursIn, Bool.or_eq_true, isPrefixOf_eq_true_iff, ih]
    constructor
    · rintro (⟨t, ht⟩ | ⟨pre, post, h⟩)
      · exact ⟨[], t, by simpa using ht⟩
      · exact ⟨c :: pre, post, by simp [h]⟩
    · rintro ⟨pre, post, h⟩
      cases pre with
      | nil => exact Or.inl ⟨post, by simpa using h⟩
      | cons p ps =>
        injection h with h1 h2
        exact Or.inr ⟨ps, post, h2⟩

/-- The substring property as the spec states it, in terms of character
sequences: `sub` occurs contiguously inside `s`, case-insensitively. -/
def lowerSubstring (s sub : String) : Prop :=
  ∃ pre post, s.toLower.toList = pre ++ sub.toLower.toList ++ post

theorem strIncludes_lower_iff (s sub : String) :
    strIncludes s.toLower sub.toLower = true ↔ lowerSubstring s sub := by
  simpa [strIncludes, lowerSubstring] using
    occursIn_eq_true_iff sub.toLower.toList s.toLower.toList

/-- C6: `loadRelevantKnowledge` loads all facts from the parent directory of
`filePath`; an empty keyword list returns them all unfiltered, and a
non-empty list keeps exactly those facts for which some keyword is,
case-insensitively, a substring of the fact's subject, of its content, or of
one of the fact's own keywords. -/
theorem loadRelevantKnowledge_spec (fs : String → FactsFile) (filePath : String)
    (keywords : List String) :
    loadRelevantKnowledge fs filePath [] = loadKnowledge (fs (dirname filePath)) ∧
    loadRelevantKnowledge fs filePath keywords =
      (if keywords.length = 0 then loadKnowledge (fs (dirname filePath))
       else (loadKnowledge (fs (dirname filePath))).filter
         fun f => matchesKeywords f (keywords.map String.toLower)) ∧
    ∀ f : Fact, matchesKeywords f (keywords.map String.toLower) = true ↔
      ∃ k ∈ keywords, lowerSubstring f.subject k ∨ lowerSubstring f.fact k ∨
        ∃ kw ∈ f.keywords, lowerSubstring kw k := by
  refine ⟨rfl, rfl, fun f => ?_⟩
  constructor
  · intro h
    simp only [matchesKeywords, List.any_eq_true, List.mem_map, Bool.or_eq_true] at h
    obtain ⟨keyword, ⟨k, hk, rfl⟩, hcase⟩ := h
    refine ⟨k, hk, ?_⟩
    rcases hcase with (h1 | h2) | ⟨fk, ⟨kw, hkw, rfl⟩, h3⟩
    · exact Or.inl ((strIncludes_lower_iff _ _).mp h1)
    · exact Or.inr (Or.inl ((strIncludes_lower_iff _ _).mp h2))
    · exact Or.inr (Or.inr ⟨kw, hkw, (strIncludes_lower_iff _ _).mp h3⟩)
  · rintro ⟨k, hk, hcase⟩
    simp only [matchesKeywords, List.any_eq_true, List.mem_map, Bool.or_eq_true]
    refine ⟨k.toLower, ⟨k, hk, rfl⟩, ?_⟩
    rcases hcase with h1 | h2 | ⟨kw, hkw, h3⟩
    · exact Or.inl (Or.inl ((strIncludes_lower_iff _ _).mpr h1))
    · exact Or.inl (Or.inr ((strIncludes_lower_iff _ _).mpr h2))
    · exact Or.inr ⟨kw.toLower, ⟨kw, hkw, rfl⟩, (strIncludes_lower_iff _ _).mpr h3⟩

/-- A new fact entering `linkFact` with one pre-existing related id `"B"`
while fact `"B"` itself is stored and matches on keywords again. -/
def dupNewFact : Fact := mkFact "A" ["k1", "k2"] [] (some ["B"])

/-- The new fact of the asymmetry instance: three pre-existing related ids
and two shared keywords with each stored candidate. -/
def asymNewFact : Fact := mkFact "A" ["k1", "k2"] [] (some ["p1", "p2", "p3"])

/-- The project state for the asymmetry instance: one log holding five
candidates `e1`–`e5`, each sharing both keywords with the new fact. -/
def asymState : ProjectState :=
  ⟨⟨["p1", "p2", "p3", "e1", "e2", "e3", "e4", "e5"], []⟩, [],
   [("m/.knowledge/facts.jsonl",
     ["e1", "e2", "e3", "e4", "e5"].map fun i => mkFact i ["k1", "k2"] [] none)]⟩

theorem relLen_updateBack_le (newId : String) (ids : List String) (f : Fact)
    (h : relLen f ≤ MAX_RELATED_FACTS) :
    relLen (updateBack newId ids f) ≤ MAX_RELATED_FACTS := by
  rw [updateBack]
  split
  · dsimp only
    split
    · simp only [relLen, Option.getD_some]
      exact h
    · simp only [relLen, Option.getD_some]
      exact List.length_take_le _ _
  · exact h

/-- C1: `linkFact` preserves the cap invariant: if every stored fact enters
the call with `related_facts` of length at most 5, then after the call the
mutated new fact and every fact in every rewritten log — in particular every
existing fact declared related, whose list got the back-link append — again
have `related_facts` of length at most 5. -/
theorem linkFact_related_cap (newFact : Fact) (st : ProjectState)
    (hinv : ∀ f ∈ allFacts st, relLen f ≤ MAX_RELATED_FACTS) :
    relLen (linkFact newFact st).2 ≤ MAX_RELATED_FACTS ∧
    ∀ path facts, (path, facts) ∈ (linkFact newFact st).1.logs →
      ∀ f ∈ facts, relLen f ≤ MAX_RELATED_FACTS := by
  constructor
  · simp only [linkFact, relLen, Option.getD_some]
    exact List.length_take_le _ _
  · intro path facts hmem f hf
    simp only [linkFact] at hmem
    obtain ⟨⟨p0, fs0⟩, hx, heq⟩ := List.mem_map.mp hmem
    obtain ⟨-, rfl⟩ := Prod.mk.injEq .. ▸ heq
    obtain ⟨g, hg, rfl⟩ := List.mem_map.mp hf
    refine relLen_updateBack_le _ _ _ (hinv g ?_)
    exact List.mem_flatten.mpr ⟨fs0, List.mem_map.mpr ⟨(p0, fs0), hx, rfl⟩, hg⟩

/-- Witness for C1 on the concrete five-candidate state. -/
theorem linkFact_related_cap_witness :
    (∀ f ∈ allFacts asymState, relLen f ≤ MAX_RELATED_FACTS) ∧
    relLen (linkFact asymNewFact asymState).2 ≤ MAX_RELATED_FACTS :=
  ⟨by decide, (linkFact_related_cap asymNewFact asymState (by decide)).1⟩

theorem mem_setAdd {x y : String} {l : List String} :
    x ∈ setAdd l y ↔ x ∈ l ∨ x = y := by
  rw [setAdd]
  split
  · rename_i h
    exact ⟨Or.inl, fun hc => hc.elim id fun hx => hx ▸ List.mem_of_elem_eq_true h⟩
  · simp

theorem nodup_setAdd {l : List String} (h : l.Nodup) (y : String) :
    (setAdd l y).Nodup := by
  rw [setAdd]
  split
  · exact h
  · rename_i hc
    rw [List.nodup_append]
    exact ⟨h, List.nodup_singleton y,
      fun x hx hy => (List.mem_singleton.mp hy ▸ hc) (List.elem_eq_true_of_mem (List.mem_singleton.mp hy ▸ hx))⟩

theorem mem_foldl_setAdd (l : List String) :
    ∀ (acc : List String) (x : String), x ∈ l.foldl setAdd acc ↔ x ∈ acc ∨ x ∈ l := by
  induction l with
  | nil => simp
  | cons a as ih =>
    intro acc x
    rw [List.foldl_cons, ih, mem_setAdd]
    simp only [List.mem_cons]
    tauto

theorem nodup_foldl_setAdd (l : List String) :
    ∀ acc : List String, acc.Nodup → (l.foldl setAdd acc).Nodup := by
  induction l with
  | nil => exact fun acc h => h
  | cons a as ih => exact fun acc h => ih _ (nodup_setAdd h a)

theorem mem_setOfList {l : List String} {x : String} : x ∈ setOfList l ↔ x ∈ l := by
  simpa [setOfList] using mem_foldl_setAdd l [] x

theorem nodup_setOfList (l : List String) : (setOfList l).Nodup :=
  nodup_foldl_setAdd l [] List.nodup_nil

/-- Whether the search index already records `location` under `keyword`
(looking the keyword up at its first occurrence, as a JavaScript object
does). -/
def indexHas : List (String × List String) → String → String → Bool
  | [], _, _ => false
  | (k, locs) :: rest, keyword, location =>
    if k = keyword then locs.contains location else indexHas rest keyword location

theorem indexHas_indexAdd_self (idx : List (String × List String))
    (keyword location : String) :
    indexHas (indexAdd idx keyword location) keyword location = true := by
  induction idx with
  | nil => simp [indexAdd, indexHas]
  | cons e rest ih =>
    obtain ⟨k, locs⟩ := e
    by_cases hk : k = keyword
    · subst hk
      by_cases hl : location ∈ locs
      · simp [indexAdd, indexHas, hl]
      · simp [indexAdd, indexHas, hl]
    · simp [indexAdd, indexHas, hk, ih]

theorem indexAdd_of_indexHas (idx : List (String × List String))
    (keyword location : String)
    (h : indexHas idx keyword location = true) :
    indexAdd idx keyword location = idx := by
  induction idx with
  | nil => simp [indexHas] at h
  | cons e rest ih =>
    obtain ⟨k, locs⟩ := e
    by_cases hk : k = keyword
    · subst hk
      simp only [indexHas, eq_self_iff_true, if_true] at h
      simp [indexAdd, List.mem_of_elem_eq_true h]
    · simp only [indexHas, if_neg hk] at h
      simp [indexAdd, hk, ih h]

theorem indexHas_indexAdd_mono (idx : List (String × List String))
    (keyword location kw loc : String)
    (h : indexHas idx keyword location = true) :
    indexHas (indexAdd idx kw loc) keyword location = true := by
  induction idx with
  | nil => simp [indexHas] at h
  | cons e rest ih =>
    obtain ⟨k, locs⟩ := e
    by_cases hk : k = kw
    · subst hk
      by_cases hkk : k = keyword
      · subst hkk
        simp only [indexHas, eq_self_iff_true, if_true] at h
        by_cases hl : loc ∈ locs
        · simp [indexAdd, indexHas, hl, List.mem_of_elem_eq_true h]
        · simp [indexAdd, indexHas, hl, List.mem_of_elem_eq_true h]
      · simp only [indexHas, if_neg hkk] at h
        by_cases hl : loc ∈ locs
        · simp [indexAdd, indexHas, hl, hkk, h]
        · simp [indexAdd, indexHas, hl, hkk, h]
    · by_cases hkk : k = keyword
      · subst hkk
        simp only [indexHas, eq_self_iff_true, if_true] at h
        simp [indexAdd, hk, indexHas, List.mem_of_elem_eq_true h]
      · simp only [indexHas, if_neg hkk] at h
        simp [indexAdd, hk, indexHas, hkk, ih h]

/-- Fold a pair list into the index, the iteration order of
`buildSearchIndex`'s nested loops. -/
def indexFold (idx : List (String × List String)) (ps : List (String × String)) :
    List (String × List String) :=
  ps.foldl (fun i p => indexAdd i p.1 p.2) idx

theorem indexHas_indexFold_mono (ps : List (String × String)) :
    ∀ (idx : List (String × List String)) (keyword location : String),
      indexHas idx keyword location = true →
      indexHas (indexFold idx ps) keyword location = true := by
  induction ps with
  | nil => exact fun idx _ _ h => h
  | cons p rest ih =>
    intro idx keyword location h
    exact ih _ _ _ (indexHas_indexAdd_mono idx keyword location p.1 p.2 h)

theorem indexHas_indexFold_of_mem (ps : List (String × String)) :
    ∀ (idx : List (String × List String)) (p : String × String), p ∈ ps →
      indexHas (indexFold idx ps) p.1 p.2 = true := by
  induction ps with
  | nil => intro idx p h; exact absurd h (List.not_mem_nil p)
  | cons q rest ih =>
    intro idx p hp
    rcases List.mem_cons.mp hp with rfl | hmem
    · exact indexHas_indexFold_mono rest _ _ _ (indexHas_indexAdd_self idx p.1 p.2)
    · exact ih _ _ hmem

theorem indexFold_of_all_indexHas (ps : List (String × String)) :
    ∀ idx : List (String × List String),
      (∀ p ∈ ps, indexHas idx p.1 p.2 = true) → indexFold idx ps = idx := by
  induction ps with
  | nil => exact fun idx _ => rfl
  | cons q rest ih =>
    intro idx h
    have hq := indexAdd_of_indexHas idx q.1 q.2 (h q (List.mem_cons_self q rest))
    show indexFold (indexAdd idx q.1 q.2) rest = idx
    rw [hq]
    exact ih idx fun p hp => h p (List.mem_cons_of_mem q hp)

theorem foldl_setAdd_of_subset (l : List String) :
    ∀ acc : List String, (∀ x ∈ l, x ∈ acc) → l.foldl setAdd acc = acc := by
  induction l with
  | nil => exact fun acc _ => rfl
  | cons a as ih =>
    intro acc h
    rw [List.foldl_cons, setAdd,
      if_pos (List.elem_eq_true_of_mem (h a (List.mem_cons_self a as)))]
    exact ih acc fun x hx => h x (List.mem_cons_of_mem a hx)

theorem foldl_setAdd_of_nodup (l : List String) :
    ∀ acc : List String, l.Nodup → (∀ x ∈ l, x ∉ acc) → l.foldl setAdd acc = acc ++ l := by
  induction l with
  | nil => simp
  | cons a as ih =>
    intro acc hnd hdisj
    have ha : ¬ acc.contains a = true := fun hc =>
      hdisj a (List.mem_cons_self a as) (List.mem_of_elem_eq_true hc)
    rw [List.foldl_cons, setAdd, if_neg ha,
      ih (acc ++ [a]) (List.nodup_cons.mp hnd).2 ?_]
    · simp
    · intro x hx hmem
      rcases List.mem_append.mp hmem with h1 | h2
      · exact hdisj x (List.mem_cons_of_mem a hx) h1
      · exact (List.nodup_cons.mp hnd).1 (List.mem_singleton.mp h2 ▸ hx)

theorem setOfList_of_nodup (l : List String) (h : l.Nodup) : setOfList l = l := by
  simpa [setOfList] using foldl_setAdd_of_nodup l [] h (by simp)

/-- C4: `rebuildAllIndexes` is idempotent over an unchanged project: running
it a second time with no fact log added, removed or modified returns exactly
the state the first run produced — the node list, the edge sequence, every
keyword's location list, and the logs themselves are unchanged by the second
run. -/
theorem rebuildAllIndexes_idempotent (st : ProjectState) :
    rebuildAllIndexes (rebuildAllIndexes st) = rebuildAllIndexes st := by
  obtain ⟨⟨nodes, edges⟩, index, logs⟩ := st
  have hrw : ∀ (ns : List String) (ix : List (String × List String)),
      rebuildAllIndexes ⟨⟨ns, edges⟩, ix, logs⟩ =
        ⟨⟨((logs.map Prod.snd).flatten.map Fact.id).foldl setAdd (setOfList ns), edges⟩,
          indexFold ix (indexPairs logs), logs⟩ := by
    intro ns ix
    show ProjectState.mk
        ⟨(logs.map Prod.snd).flatten.foldl (fun s f => setAdd s f.id) (setOfList ns), edges⟩
        (indexFold ix (indexPairs logs)) logs = _
    rw [← List.foldl_map Fact.id setAdd]
  rw [hrw, hrw]
  have hnd1 : (((logs.map Prod.snd).flatten.map Fact.id).foldl setAdd
      (setOfList nodes)).Nodup :=
    nodup_foldl_setAdd _ _ (nodup_setOfList _)
  rw [indexFold_of_all_indexHas (indexPairs logs) (indexFold index (indexPairs logs))
      fun p hp => indexHas_indexFold_of_mem _ index p hp,
    setOfList_of_nodup _ hnd1,
    foldl_setAdd_of_subset _ _ fun x hx =>
      (mem_foldl_setAdd _ (setOfList nodes) x).mpr (Or.inr hx)]

/-- C9 counterexample: the check-then-create lock does not exclude
interleaved concurrent writers.  Two `appendFact` calls with distinct fact
ids on a fresh directory, interleaved strictly alternately, both observe the
lock file absent, both acquire, both read the empty log, and the second write
overwrites the first: after both calls complete, the log holds only the
second fact — the union-exactly-once property fails, fact `"A"` appears zero
times. -/
theorem append_lock_race_counterexample :
    (∀ w ∈ (runSchedule (twoWorkers wfA wfB) [0, 1, 0, 1, 0, 1, 0, 1, 0, 1]).workers,
      w.pc = AppendPc.done) ∧
    (runSchedule (twoWorkers wfA wfB) [0, 1, 0, 1, 0, 1, 0, 1, 0, 1]).loadedFacts = [wfB] ∧
    wfA ∉ (runSchedule (twoWorkers wfA wfB) [0, 1, 0, 1, 0, 1, 0, 1, 0, 1]).loadedFacts :=
  ⟨by decide, by decide, by decide⟩

/-- C9 amended: when the `appendFact` calls are serialized (each call
completes before the next begins), a directory log built from facts with
pairwise-distinct ids contains each appended fact exactly once. -/
theorem append_serialized_exactly_once (facts : List Fact)
    (hnd : (facts.map Fact.id).Nodup) (f : Fact) (hf : f ∈ facts) :
    ∃ file : FactsFile, appendAll FactsFile.absent facts = .ok file ∧
      ((loadKnowledge file).map Fact.id).count f.id = 1 := by
  cases facts with
  | nil => exact absurd hf (List.not_mem_nil f)
  | cons g rest =>
    refine ⟨.content ((g :: rest).map LogLine.fact), ?_, ?_⟩
    · simpa [appendAll, appendFact] using appendAll_content rest [LogLine.fact g]
    · rw [loadKnowledge_map_fact]
      exact List.count_eq_one_of_mem hnd (List.mem_map_of_mem Fact.id hf)

/-- Witness for the amended C9 on two concrete facts with distinct ids. -/
theorem append_serialized_exactly_once_witness :
    (([wfA, wfB].map Fact.id).Nodup ∧ wfA ∈ [wfA, wfB]) ∧
    ∃ file : FactsFile, appendAll FactsFile.absent [wfA, wfB] = .ok file ∧
      ((loadKnowledge file).map Fact.id).count wfA.id = 1 :=
  ⟨⟨by decide, by decide⟩,
    append_serialized_exactly_once [wfA, wfB] (by decide) wfA (by decide)⟩

/-!
### The source's per-file log resolution, at path level

`linkFact` (knowledge-linker.ts lines 63-65), `updateRelatedFactsFields`
(lines 176-177 and 191-192), `buildSearchIndex` (index-builder.ts lines
78-79) and `buildGraph` (lines 158-159) all load a discovered fact log
`file` as `loadKnowledge(dirname(file))`.  The glob discovers files of the
form `<module>/.knowledge/facts.jsonl`, so `dirname(file)` is the
`.knowledge` folder itself, and `loadKnowledge` then resolves
`join(dirname(file), '.knowledge', 'facts.jsonl')` =
`<module>/.knowledge/.knowledge/facts.jsonl` — a path the writer never
creates (`appendFact` writes `<dir>/.knowledge/facts.jsonl`).  Every such
load therefore returns `[]`.  The definitions below carry this path
arithmetic explicitly over a filesystem mapping paths to files, so the
divergence between the documented behaviour and the program can be
evaluated. -/

/-- The log path the writer creates for a directory and the loader's
`join(directory, '.knowledge', 'facts.jsonl')` resolves. -/
def factsLogPath (directory : String) : String :=
  directory ++ "/.knowledge/facts.jsonl"

/-- `loadKnowledge(directory)` at path level: resolve the directory's log
path in the filesystem and read it. -/
def loadKnowledgeAt (fs : String → FactsFile) (directory : String) : List Fact :=
  loadKnowledge (fs (factsLogPath directory))

/-- A project on disk: the filesystem (a map from path to file) and the
module directories whose logs the glob `**/.knowledge/facts.jsonl`
discovers, in discovery order. -/
structure DiskProject where
  fs : String → FactsFile
  modules : List String

/-- The facts the source really collects from the discovered logs — the
`allFacts` array of `linkFact` and the scan input of `buildSearchIndex` and
`buildGraph`: for every discovered file, `loadKnowledge(dirname(file))`. -/
def discoveredFacts (p : DiskProject) : List Fact :=
  (p.modules.map fun m => loadKnowledgeAt p.fs (dirname (factsLogPath m))).flatten

theorem dropWhile_append_left (p : Char → Bool) (l₁ l₂ : List Char)
    (h : l₁.dropWhile p ≠ []) :
    (l₁ ++ l₂).dropWhile p = l₁.dropWhile p ++ l₂ := by
  induction l₁ with
  | nil => exact absurd rfl h
  | cons a as ih =>
    by_cases hp : p a
    · rw [List.dropWhile_cons, if_pos hp] at h
      rw [List.cons_append, List.dropWhile_cons, if_pos hp, List.dropWhile_cons, if_pos hp]
      exact ih h
    · rw [List.cons_append, List.dropWhile_cons, if_neg hp, List.dropWhile_cons, if_neg hp,
        List.cons_append]

theorem dirnameChars_knowledge (l : List Char) :
    dirnameChars (l ++ "/.knowledge/facts.jsonl".data) = l ++ "/.knowledge".data := by
  unfold dirnameChars
  rw [List.reverse_append, dropWhile_append_left _ _ _ (by decide),
    show ("/.knowledge/facts.jsonl".data.reverse.dropWhile fun c => c ≠ '/') =
      '/' :: (['e', 'g', 'd', 'e', 'l', 'w', 'o', 'n', 'k', '.', '/'] : List Char) from by decide]
  rw [List.cons_append, List.tail_cons, List.reverse_append, List.reverse_reverse]
  rfl

/-- `dirname` sends every discovered log path to its `.knowledge` folder. -/
theorem dirname_factsLogPath (m : String) :
    dirname (factsLogPath m) = m ++ "/.knowledge" := by
  have hchars : (factsLogPath m).toList = m.data ++ "/.knowledge/facts.jsonl".data := rfl
  have hmem : '/' ∈ (factsLogPath m).toList := by
    rw [hchars]
    exact List.mem_append_right _ (by decide)
  rw [dirname, if_pos hmem, hchars, dirnameChars_knowledge, if_neg (by simp)]
  rfl

/-- The per-file load of the linker and index builder resolves the doubled
`.knowledge` path. -/
theorem discoveredFacts_eq_doubled (p : DiskProject) :
    discoveredFacts p = (p.modules.map fun m =>
      loadKnowledge (p.fs (m ++ "/.knowledge/.knowledge/facts.jsonl"))).flatten := by
  have hfun : (fun m => loadKnowledgeAt p.fs (dirname (factsLogPath m))) =
      fun m => loadKnowledge (p.fs (m ++ "/.knowledge/.knowledge/facts.jsonl")) := by
    funext m
    rw [loadKnowledgeAt, dirname_factsLogPath]
    have hpath : factsLogPath (m ++ "/.knowledge") =
        m ++ "/.knowledge/.knowledge/facts.jsonl" := by
      rw [factsLogPath, String.append_assoc]
      rfl
    rw [hpath]
  rw [discoveredFacts, hfun]

theorem flatten_loadKnowledge_absent (fs : String → FactsFile) :
    ∀ ms : List String,
      (∀ m ∈ ms, fs (m ++ "/.knowledge/.knowledge/facts.jsonl") = FactsFile.absent) →
      (ms.map fun m =>
        loadKnowledge (fs (m ++ "/.knowledge/.knowledge/facts.jsonl"))).flatten = [] := by
  intro ms
  induction ms with
  | nil => intro _; rfl
  | cons m rest ih =>
    intro h
    simp only [List.map_cons, List.flatten_cons]
    rw [h m (List.mem_cons_self m rest), show loadKnowledge FactsFile.absent = [] from rfl,
      List.nil_append]
    exact ih fun x hx => h x (List.mem_cons_of_mem m hx)

/-- On any filesystem without files at the doubled `.knowledge` paths — the
writer never creates one — the scan input of the linker and index builder is
empty. -/
theorem discoveredFacts_empty (p : DiskProject)
    (h : ∀ m ∈ p.modules,
      p.fs (m ++ "/.knowledge/.knowledge/facts.jsonl") = FactsFile.absent) :
    discoveredFacts p = [] := by
  rw [discoveredFacts_eq_doubled]
  exact flatten_loadKnowledge_absent p.fs p.modules h

/-- `linkFact` over the disk project: graph side and returned new fact,
computed as the source computes them, with `allFacts` loaded the way
knowledge-linker.ts really loads it (`discoveredFacts`). -/
def linkFactDisk (newFact : Fact) (graph : KnowledgeGraph) (p : DiskProject) :
    KnowledgeGraph × Fact :=
  let nodes := if graph.nodes.contains newFact.id then graph.nodes
    else graph.nodes ++ [newFact.id]
  let scan := scanFacts newFact ⟨[], []⟩ (discoveredFacts p)
  let updatedNewFact := { newFact with
    related_facts := some ((newFact.related_facts.getD [] ++ scan.relatedFactIds).take MAX_RELATED_FACTS) }
  let edges := scan.newEdges.foldl addEdgeIfAbsent graph.edges
  (⟨nodes, edges⟩, updatedNewFact)

/-- The discovered files holding at least one fact whose id was declared
related — a superset of the files `updateRelatedFactsFields` rewrites (the
further modified-only check can only shrink it).  The reloads at
knowledge-linker.ts lines 176-177 and 191-192 use the same
`loadKnowledge(dirname(file))` resolution as the scan. -/
def backlinkCandidateFiles (p : DiskProject) (relatedFactIds : List String) : List String :=
  (p.modules.map factsLogPath).filter fun file =>
    (loadKnowledgeAt p.fs (dirname file)).any fun fact => relatedFactIds.contains fact.id

/-- `buildGraph` over the disk project: node set from the persisted nodes
plus every fact the source's per-file load actually returns; edges
preserved. -/
def buildGraphDisk (existingGraph : KnowledgeGraph) (p : DiskProject) : KnowledgeGraph :=
  ⟨(discoveredFacts p).foldl (fun s f => setAdd s f.id) (setOfList existingGraph.nodes),
    existingGraph.edges⟩

/-- A filesystem holding exactly one log, `src/order/.knowledge/facts.jsonl`,
with fact `B` in it. -/
def bugFs : String → FactsFile := fun path =>
  if path = "src/order/.knowledge/facts.jsonl" then .content [.fact wfB] else .absent

/-- The disk project that filesystem presents: the glob discovers the one
log of module directory `src/order`. -/
def bugProject : DiskProject := ⟨bugFs, ["src/order"]⟩

/-- C2 (code bug): fact `A` should link to stored fact `B` — the pair
satisfies the detection rule, and `B`'s log is discoverable — but the
candidate load of `linkFact` resolves `dirname(file)` of the discovered log
and reads `src/order/.knowledge/.knowledge/facts.jsonl`, which is absent,
so the scan input is empty and the call declares no relation, stages no
edge, and leaves the new fact's related list empty. -/
theorem linkFact_candidate_load_bug :
    linkRule wfA wfB = true ∧
    bugFs (factsLogPath "src/order") = .content [.fact wfB] ∧
    dirname (factsLogPath "src/order") = "src/order/.knowledge" ∧
    discoveredFacts bugProject = [] ∧
    (linkFactDisk wfA ⟨["B"], []⟩ bugProject).2.related_facts = some [] ∧
    (linkFactDisk wfA ⟨["B"], []⟩ bugProject).1.edges = [] :=
  ⟨by decide, by decide, by decide, by decide, by decide, by decide⟩

/-- The disk project for the duplication claim: module `src` stores fact
`B`, which shares both keywords with `dupNewFact`. -/
def dupDisk : DiskProject :=
  ⟨fun path => if path = "src/.knowledge/facts.jsonl" then
      .content [.fact (mkFact "B" ["k1", "k2"] [] none)]
    else .absent, ["src"]⟩

/-- C7 (code bug): the concatenate-and-truncate step runs, but because the
candidate load resolves the doubled `.knowledge` path, `relatedFactIds` is
always empty: a new fact entering with pre-existing related id `B`, with `B`
stored and matching on two keywords, comes back with `related_facts`
`["B"]` (count 1) — the documented possibility of the discovered `B`
duplicating the pre-existing `B` is unreachable. -/
theorem linkFact_no_dedup_unreachable :
    linkRule dupNewFact (mkFact "B" ["k1", "k2"] [] none) = true ∧
    discoveredFacts dupDisk = [] ∧
    (scanFacts dupNewFact ⟨[], []⟩ (discoveredFacts dupDisk)).relatedFactIds = [] ∧
    (linkFactDisk dupNewFact ⟨["B"], []⟩ dupDisk).2.related_facts = some ["B"] ∧
    ((linkFactDisk dupNewFact ⟨["B"], []⟩ dupDisk).2.related_facts.getD []).count "B" = 1 :=
  ⟨by decide, by decide, by decide, by decide, by decide⟩

/-- C8 (code bug): the discovered log holds fact id `B`, but `buildGraph`'s
per-file load resolves the doubled `.knowledge` path and returns `[]`, so
no discovered fact id is ever unioned into the node set: starting from an
empty persisted graph the node list stays empty (the persisted edges are
still preserved unchanged). -/
theorem buildGraph_nodes_bug :
    loadKnowledge (bugFs (factsLogPath "src/order")) = [wfB] ∧
    discoveredFacts bugProject = [] ∧
    (buildGraphDisk ⟨[], []⟩ bugProject).nodes = [] ∧
    (buildGraphDisk ⟨[], [⟨"x", "y", "related"⟩]⟩ bugProject).edges =
      [⟨"x", "y", "related"⟩] :=
  ⟨by decide, by decide, by decide, by decide⟩

/-- The disk project for the back-link claim: module `m` stores five facts
`e1`-`e5`, each sharing both keywords with `asymNewFact`. -/
def asymDisk : DiskProject :=
  ⟨fun path => if path = "m/.knowledge/facts.jsonl" then
      .content ((["e1", "e2", "e3", "e4", "e5"].map fun i =>
        mkFact i ["k1", "k2"] [] none).map LogLine.fact)
    else .absent, ["m"]⟩

/-- C10 (code bug): the bidirectional write-back never runs.  Five matching
candidates are stored, yet the scan input loads empty (doubled `.knowledge`
path), no id is declared related, no log file qualifies for a rewrite — for
any declared-id list at all — and the new fact keeps exactly its
pre-existing related ids: the claimed asymmetric back-link state arises for
no input. -/
theorem linkFact_backlink_never_written :
    (loadKnowledge (asymDisk.fs (factsLogPath "m"))).length = 5 ∧
    discoveredFacts asymDisk = [] ∧
    (scanFacts asymNewFact ⟨[], []⟩ (discoveredFacts asymDisk)).relatedFactIds = [] ∧
    (∀ ids : List String, backlinkCandidateFiles asymDisk ids = []) ∧
    (linkFactDisk asymNewFact ⟨[], []⟩ asymDisk).2.related_facts =
      some ["p1", "p2", "p3"] :=
  ⟨by decide, by decide, by decide, fun ids => rfl, by decide⟩

end SmartCodebase
